import Mathlib

/-!
Verification of the uncpath-rs core: the multi-format UNC path parser
(src/convert.rs) and the mapping table (src/mapping.rs).  Strings are
modelled as `List Char`; Rust standard-library behaviour (trim,
to_lowercase, split, trim_end_matches) is modelled explicitly below, and
each model notes the Rust function it embeds.
-/

deriving instance DecidableEq for Except

namespace Uncpath

/-! ## Data model (src/convert.rs, src/mapping.rs) -/

/-- Parsed UNC path components (struct UncPath in src/convert.rs). -/
structure UncPath where
  host : List Char
  share : List Char
  path : List Char
deriving DecidableEq

/-- A single mapping entry (struct MountMapping in src/mapping.rs). -/
structure MountMapping where
  host : List Char
  share : List Char
  mount_point : List Char
deriving DecidableEq

/-- The insertion-ordered mapping table (struct MappingTable in src/mapping.rs). -/
structure MappingTable where
  mappings : List MountMapping
deriving DecidableEq

/-- Error type (enum UncPathError in src/errors.rs).  The payloads of the
JsonError and IoError variants wrap external-library error values; we carry
them as plain character lists. -/
inductive UncPathError where
  | InvalidFormat (msg : List Char)
  | MappingNotFound (host share : List Char)
  | InvalidMapping (msg : List Char)
  | JsonError (msg : List Char)
  | IoError (msg : List Char)
deriving DecidableEq

/-- The constructor tag of an error, used to compare error kinds. -/
inductive ErrKind where
  | invalidFormat
  | mappingNotFound
  | invalidMapping
  | jsonError
  | ioError
deriving DecidableEq

def UncPathError.kind : UncPathError → ErrKind
  | .InvalidFormat _ => .invalidFormat
  | .MappingNotFound _ _ => .mappingNotFound
  | .InvalidMapping _ => .invalidMapping
  | .JsonError _ => .jsonError
  | .IoError _ => .ioError

/-! ## Rust standard-library string models -/

/-- Model of Rust char::is_whitespace: the Unicode White_Space property. -/
def rustIsWhitespace (c : Char) : Bool :=
  let n := c.toNat
  (0x09 ≤ n && n ≤ 0x0D) || n = 0x20 || n = 0x85 || n = 0xA0 || n = 0x1680 ||
  (0x2000 ≤ n && n ≤ 0x200A) || n = 0x2028 || n = 0x2029 || n = 0x202F ||
  n = 0x205F || n = 0x3000

def trimLeft (l : List Char) : List Char := l.dropWhile rustIsWhitespace

def trimRight (l : List Char) : List Char :=
  (l.reverse.dropWhile rustIsWhitespace).reverse

/-- Model of Rust str::trim. -/
def trim (l : List Char) : List Char := trimRight (trimLeft l)

/-- Model of Rust str::starts_with for a literal pattern. -/
def startsWith : List Char → List Char → Bool
  | [], _ => true
  | _ :: _, [] => false
  | p :: ps, c :: cs => if p = c then startsWith ps cs else false

/-- Model of Rust char lowercasing as used by str::to_lowercase.  Rust
performs full Unicode lowercasing; this model performs the ASCII-range
lowercasing, which coincides with Rust on ASCII strings. -/
def lowerChar (c : Char) : Char :=
  if 'A' ≤ c ∧ c ≤ 'Z' then Char.ofNat (c.toNat + 32) else c

/-- Model of Rust str::to_lowercase (ASCII range, see lowerChar). -/
def lowerStr (l : List Char) : List Char := l.map lowerChar

/-- Model of str::replace of the single character backslash by "/". -/
def replaceBackslash (l : List Char) : List Char :=
  l.map (fun c => if c = '\\' then '/' else c)

/-- Model of mount_point.trim_end_matches of the character slash: removes
ALL trailing slash characters (trim_end_matches removes matching suffixes
repeatedly). -/
def trimEndSlashes (l : List Char) : List Char :=
  (l.reverse.dropWhile (fun c => c = '/')).reverse

/-- Model of Rust str::split on the colon character: the empty string
yields one empty field, and every colon starts a new field. -/
def splitColon : List Char → List (List Char)
  | [] => [[]]
  | c :: rest =>
    if c = ':' then [] :: splitColon rest
    else
      match splitColon rest with
      | [] => [[c]]
      | p :: ps => (c :: p) :: ps

/-- Number of colon characters in a string. -/
def countColon : List Char → Nat
  | [] => 0
  | c :: rest => (if c = ':' then 1 else 0) + countColon rest

/-! ## Parser (src/convert.rs)

The three grammars are the anchored regexes
`^\\\\([^\\]+)\\([^\\]+)(.*)$`, `^smb://([^/]+)/([^/]+)(.*)$` and
`^//([^/]+)/([^/]+)(.*)$`.  Since the character classes exclude exactly the
separator, a successful match is forced: group 1 is the maximal nonempty
separator-free run after the prefix, then a literal separator, then group 2
is the next maximal nonempty separator-free run, and group 3 is the whole
remainder.  In the Rust regex crate the dot does not match the newline
character, so the match fails when the group-3 remainder contains a
newline; backtracking cannot recover because shorter group choices keep the
newline inside group 3 or break the literal separator.  `splitHostShare`
implements this common shape for a given separator character. -/

def splitHostShare (sep : Char) (rest : List Char) :
    Option (List Char × List Char × List Char) :=
  let host := rest.takeWhile (fun c => c ≠ sep)
  let r1 := rest.dropWhile (fun c => c ≠ sep)
  if host = [] then none
  else if r1 = [] then none
  else
    let rest2 := r1.tail
    let share := rest2.takeWhile (fun c => c ≠ sep)
    let r2 := rest2.dropWhile (fun c => c ≠ sep)
    if share = [] then none
    else if '\n' ∈ r2 then none
    else some (host, share, r2)

def winMsg (i : List Char) : List Char :=
  "Invalid Windows UNC format: ".toList ++ i

def smbMsg (i : List Char) : List Char :=
  "Invalid SMB URL format: ".toList ++ i

def unixMsg (i : List Char) : List Char :=
  "Invalid Unix-style UNC format: ".toList ++ i

def noFormatMsg (i : List Char) : List Char :=
  "Path does not match any supported UNC format: ".toList ++ i

/-- parse_windows_unc from src/convert.rs: backslash grammar; the residual
path has every backslash replaced by a forward slash. -/
def parse_windows_unc (input : List Char) : Except UncPathError UncPath :=
  match input with
  | '\\' :: '\\' :: rest =>
    match splitHostShare '\\' rest with
    | some (h, s, p) => .ok ⟨h, s, replaceBackslash p⟩
    | none => .error (.InvalidFormat (winMsg input))
  | _ => .error (.InvalidFormat (winMsg input))

/-- parse_smb_url from src/convert.rs. -/
def parse_smb_url (input : List Char) : Except UncPathError UncPath :=
  match input with
  | 's' :: 'm' :: 'b' :: ':' :: '/' :: '/' :: rest =>
    match splitHostShare '/' rest with
    | some (h, s, p) => .ok ⟨h, s, p⟩
    | none => .error (.InvalidFormat (smbMsg input))
  | _ => .error (.InvalidFormat (smbMsg input))

/-- parse_unix_style from src/convert.rs. -/
def parse_unix_style (input : List Char) : Except UncPathError UncPath :=
  match input with
  | '/' :: '/' :: rest =>
    match splitHostShare '/' rest with
    | some (h, s, p) => .ok ⟨h, s, p⟩
    | none => .error (.InvalidFormat (unixMsg input))
  | _ => .error (.InvalidFormat (unixMsg input))

/-- parse_unc_path from src/convert.rs: trim, then dispatch on the literal
prefix in the fixed order Windows UNC, SMB URL, Unix-style. -/
def parse_unc_path (input : List Char) : Except UncPathError UncPath :=
  let t := trim input
  if startsWith ['\\', '\\'] t then parse_windows_unc t
  else if startsWith ['s', 'm', 'b', ':', '/', '/'] t then parse_smb_url t
  else if startsWith ['/', '/'] t then parse_unix_style t
  else .error (.InvalidFormat (noFormatMsg t))

/-! ## Mapping table (src/mapping.rs) -/

/-- The scan loop inside find_mount_point. -/
def findMP : List MountMapping → List Char → List Char → Option (List Char)
  | [], _, _ => none
  | m :: rest, h, s =>
    if lowerStr m.host = lowerStr h ∧ lowerStr m.share = lowerStr s then
      some m.mount_point
    else findMP rest h s

/-- find_mount_point from src/mapping.rs: linear scan in insertion order,
case-insensitive on host and share. -/
def find_mount_point (t : MappingTable) (host share : List Char) :
    Option (List Char) :=
  findMP t.mappings host share

/-- add_mapping from src/mapping.rs: direct append. -/
def add_mapping (t : MappingTable) (host share mount_point : List Char) :
    MappingTable :=
  ⟨t.mappings ++ [⟨host, share, mount_point⟩]⟩

def cliMsg (s : List Char) : List Char :=
  "Expected format: host:share:mount_point, got: ".toList ++ s

/-- add_from_cli from src/mapping.rs.  The Rust method mutates the table
and returns Result of unit; we return the result together with the final
table state. -/
def add_from_cli (t : MappingTable) (s : List Char) :
    Except UncPathError Unit × MappingTable :=
  match splitColon s with
  | [a, b, c] => (.ok (), add_mapping t a b c)
  | _ => (.error (.InvalidMapping (cliMsg s)), t)

/-- load_from_env from src/mapping.rs.  The JSON decoding performed by the
external serde_json crate is abstracted as the parameter parseJson, and the
environment read as the Option-valued envVal (absence, including a
non-unicode value, is silently skipped by the if-let in the source).  On a
decode error the question-mark operator returns before the append loop
runs, so the table is returned unchanged. -/
def load_from_env (parseJson : List Char → Except (List Char) (List MountMapping))
    (envVal : Option (List Char)) (t : MappingTable) :
    Except UncPathError Unit × MappingTable :=
  match envVal with
  | none => (.ok (), t)
  | some s =>
    match parseJson s with
    | .error e => (.error (.JsonError e), t)
    | .ok ms => (.ok (), ⟨t.mappings ++ ms⟩)

/-- load_from_file from src/mapping.rs.  The filesystem read is abstracted
as the Except-valued content argument and the serde_json decoding as
parseJson, both external to this repository.  Either failure returns
through the question-mark operator before the append loop runs. -/
def load_from_file (parseJson : List Char → Except (List Char) (List MountMapping))
    (content : Except (List Char) (List Char)) (t : MappingTable) :
    Except UncPathError Unit × MappingTable :=
  match content with
  | .error ioe => (.error (.IoError ioe), t)
  | .ok s =>
    match parseJson s with
    | .error e => (.error (.JsonError e), t)
    | .ok ms => (.ok (), ⟨t.mappings ++ ms⟩)

/-! ## Converter (src/convert.rs) -/

/-- convert_to_posix from src/convert.rs. -/
def convert_to_posix (input : List Char) (table : MappingTable) :
    Except UncPathError (List Char) :=
  match parse_unc_path input with
  | .error e => .error e
  | .ok u =>
    match find_mount_point table u.host u.share with
    | some mp =>
      if u.path = [] ∨ u.path = ['/'] then .ok mp
      else .ok (trimEndSlashes mp ++ u.path)
    | none => .error (.MappingNotFound u.host u.share)

/-! ## Textual forms for the format-equivalence claim

The three notations for one logical reference (host, share, residual
segments), written out as the claim describes them. -/

/-- One separator character before each segment, segments concatenated. -/
def segsJoin (sep : Char) : List (List Char) → List Char
  | [] => []
  | s :: rest => sep :: (s ++ segsJoin sep rest)

/-- The Windows UNC form of the reference. -/
def winForm (host share : List Char) (segs : List (List Char)) : List Char :=
  ['\\', '\\'] ++ (host ++ '\\' :: share ++ segsJoin '\\' segs)

/-- The Unix-style form of the reference. -/
def unixForm (host share : List Char) (segs : List (List Char)) : List Char :=
  ['/', '/'] ++ (host ++ '/' :: share ++ segsJoin '/' segs)

/-- The SMB URL form of the reference. -/
def smbForm (host share : List Char) (segs : List (List Char)) : List Char :=
  ['s', 'm', 'b', ':', '/', '/'] ++ (host ++ '/' :: share ++ segsJoin '/' segs)

/-- Sends the forward slash to the backslash, every other character to
itself: relates the slash-separated body to the backslash-separated one. -/
def toBack (c : Char) : Char := if c = '/' then '\\' else c

/-- Two parse results agree: equal parsed values, or errors of the same
kind. -/
def parseRel : Except UncPathError UncPath → Except UncPathError UncPath → Prop
  | .ok u, .ok v => u = v
  | .error e, .error f => e.kind = f.kind
  | _, _ => False

/-- Two conversion results agree: the same output string, or errors of the
same kind. -/
def sameOutcome :
    Except UncPathError (List Char) → Except UncPathError (List Char) → Prop
  | .ok a, .ok b => a = b
  | .error e, .error f => e.kind = f.kind
  | _, _ => False

/-! ## Helper lemmas -/

theorem findMP_first (pre post : List MountMapping) (m : MountMapping)
    (h s : List Char)
    (hm : lowerStr m.host = lowerStr h ∧ lowerStr m.share = lowerStr s)
    (hpre : ∀ m₀ ∈ pre,
      ¬(lowerStr m₀.host = lowerStr h ∧ lowerStr m₀.share = lowerStr s)) :
    findMP (pre ++ m :: post) h s = some m.mount_point := by
  induction pre with
  | nil => simp [findMP, hm]
  | cons a rest ih =>
    have ha := hpre a (by simp)
    simp only [List.cons_append, findMP]
    rw [if_neg ha]
    exact ih fun m₀ hmem => hpre m₀ (by simp [hmem])

theorem findMP_keys_congr (L : List MountMapping) (h₁ s₁ h₂ s₂ : List Char)
    (hh : lowerStr h₁ = lowerStr h₂) (hs : lowerStr s₁ = lowerStr s₂) :
    findMP L h₁ s₁ = findMP L h₂ s₂ := by
  induction L with
  | nil => rfl
  | cons a rest ih => simp only [findMP, hh, hs, ih]

theorem findMP_none (L : List MountMapping) (h s : List Char)
    (hno : ∀ m ∈ L,
      ¬(lowerStr m.host = lowerStr h ∧ lowerStr m.share = lowerStr s)) :
    findMP L h s = none := by
  induction L with
  | nil => rfl
  | cons a rest ih =>
    simp only [findMP]
    rw [if_neg (hno a (by simp))]
    exact ih fun m hmem => hno m (by simp [hmem])

theorem takeWhile_congr_mem {p q : Char → Bool} {l : List Char}
    (h : ∀ c ∈ l, p c = q c) : l.takeWhile p = l.takeWhile q := by
  induction l with
  | nil => rfl
  | cons c rest ih =>
    rw [List.takeWhile_cons, List.takeWhile_cons, h c (by simp)]
    split
    · rw [ih fun c₀ hc => h c₀ (by simp [hc])]
    · rfl

theorem dropWhile_congr_mem {p q : Char → Bool} {l : List Char}
    (h : ∀ c ∈ l, p c = q c) : l.dropWhile p = l.dropWhile q := by
  induction l with
  | nil => rfl
  | cons c rest ih =>
    rw [List.dropWhile_cons, List.dropWhile_cons, h c (by simp)]
    split
    · exact ih fun c₀ hc => h c₀ (by simp [hc])
    · rfl

theorem trimRight_eq_nil_iff {l : List Char} :
    trimRight l = [] ↔ ∀ c ∈ l, rustIsWhitespace c = true := by
  rw [trimRight, List.reverse_eq_nil_iff, List.dropWhile_eq_nil_iff]
  constructor
  · intro h c hc
    exact h c (List.mem_reverse.mpr hc)
  · intro h c hc
    exact h c (List.mem_reverse.mp hc)

theorem trimRight_ne_nil {l : List Char} (c : Char) (hm : c ∈ l)
    (hw : rustIsWhitespace c = false) : trimRight l ≠ [] := by
  intro hnil
  have := trimRight_eq_nil_iff.mp hnil c hm
  rw [hw] at this
  exact absurd this (by simp)

theorem trimRight_append (l₁ : List Char) {l₂ : List Char}
    (h : trimRight l₂ ≠ []) :
    trimRight (l₁ ++ l₂) = l₁ ++ trimRight l₂ := by
  have hne : l₂.reverse.dropWhile rustIsWhitespace ≠ [] := by
    intro hnil
    exact h (by simp [trimRight, hnil])
  unfold trimRight
  rw [List.reverse_append, List.dropWhile_append,
    if_neg (by simpa [List.isEmpty_iff] using hne)]
  simp [List.reverse_append]

theorem trimRight_map {f : Char → Char}
    (hf : ∀ c, rustIsWhitespace (f c) = rustIsWhitespace c) (l : List Char) :
    trimRight (l.map f) = (trimRight l).map f := by
  have hcomp : rustIsWhitespace ∘ f = rustIsWhitespace := funext hf
  unfold trimRight
  rw [← List.map_reverse, List.dropWhile_map, hcomp, List.map_reverse]

theorem mem_trimRight {l : List Char} {c : Char} (h : c ∈ trimRight l) :
    c ∈ l := by
  unfold trimRight at h
  rw [List.mem_reverse] at h
  exact List.mem_reverse.mp (List.dropWhile_subset _ h)

theorem trim_cons_not_ws {c : Char} (hc : rustIsWhitespace c = false)
    (l : List Char) : trim (c :: l) = trimRight (c :: l) := by
  unfold trim trimLeft
  rw [List.dropWhile_cons, if_neg (by simp [hc])]

theorem trim_pre_append {pre body : List Char} (hne : pre ≠ [])
    (hws : ∀ c ∈ pre, rustIsWhitespace c = false)
    (hb : trimRight body ≠ []) :
    trim (pre ++ body) = pre ++ trimRight body := by
  cases pre with
  | nil => exact absurd rfl hne
  | cons c cs =>
    rw [List.cons_append, trim_cons_not_ws (hws c (by simp))]
    exact trimRight_append (c :: cs) hb

theorem toBack_ws (c : Char) :
    rustIsWhitespace (toBack c) = rustIsWhitespace c := by
  by_cases hc : c = '/'
  · subst hc
    rfl
  · simp [toBack, hc]

theorem mem_segsJoin {sep c : Char} {segs : List (List Char)}
    (h : c ∈ segsJoin sep segs) : c = sep ∨ ∃ s ∈ segs, c ∈ s := by
  induction segs with
  | nil => simp [segsJoin] at h
  | cons s rest ih =>
    simp only [segsJoin, List.mem_cons, List.mem_append] at h
    rcases h with h | h | h
    · exact Or.inl h
    · exact Or.inr ⟨s, by simp, h⟩
    · rcases ih h with h | ⟨s₀, hs₀, hc⟩
      · exact Or.inl h
      · exact Or.inr ⟨s₀, by simp [hs₀], hc⟩

theorem map_toBack_id {l : List Char} (h : ∀ c ∈ l, c ≠ '/') :
    l.map toBack = l := by
  induction l with
  | nil => rfl
  | cons c rest ih =>
    simp only [List.map_cons]
    rw [show toBack c = c from by simp [toBack, h c (by simp)],
      ih fun c₀ hc => h c₀ (by simp [hc])]

theorem map_toBack_segsJoin {segs : List (List Char)}
    (h : ∀ s ∈ segs, ∀ c ∈ s, c ≠ '/') :
    (segsJoin '/' segs).map toBack = segsJoin '\\' segs := by
  induction segs with
  | nil => rfl
  | cons s rest ih =>
    simp only [segsJoin, List.map_cons, List.map_append]
    rw [map_toBack_id (h s (by simp)), ih fun s₀ hs => h s₀ (by simp [hs])]
    rfl

theorem body_map_toBack {host share : List Char} {segs : List (List Char)}
    (hh : ∀ c ∈ host, c ≠ '/') (hs : ∀ c ∈ share, c ≠ '/')
    (hg : ∀ s ∈ segs, ∀ c ∈ s, c ≠ '/') :
    (host ++ '/' :: share ++ segsJoin '/' segs).map toBack =
      host ++ '\\' :: share ++ segsJoin '\\' segs := by
  simp only [List.map_append, List.map_cons]
  rw [map_toBack_id hh, map_toBack_id hs, map_toBack_segsJoin hg]
  rfl

theorem takeWhile_toBack {b : List Char} (hb : ∀ c ∈ b, c ≠ '\\') :
    (b.map toBack).takeWhile (fun c => c ≠ '\\') =
      (b.takeWhile (fun c => c ≠ '/')).map toBack := by
  rw [List.takeWhile_map]
  have hcongr : ∀ c ∈ b,
      ((fun c => decide (c ≠ '\\')) ∘ toBack) c = decide (c ≠ '/') := by
    intro c hc
    by_cases hcs : c = '/'
    · subst hcs
      rfl
    · simp [Function.comp, toBack, hcs, hb c hc]
  rw [takeWhile_congr_mem hcongr]

theorem dropWhile_toBack {b : List Char} (hb : ∀ c ∈ b, c ≠ '\\') :
    (b.map toBack).dropWhile (fun c => c ≠ '\\') =
      (b.dropWhile (fun c => c ≠ '/')).map toBack := by
  rw [List.dropWhile_map]
  have hcongr : ∀ c ∈ b,
      ((fun c => decide (c ≠ '\\')) ∘ toBack) c = decide (c ≠ '/') := by
    intro c hc
    by_cases hcs : c = '/'
    · subst hcs
      rfl
    · simp [Function.comp, toBack, hcs, hb c hc]
  rw [dropWhile_congr_mem hcongr]

theorem newline_mem_map_toBack {l : List Char} :
    ('\n' ∈ l.map toBack) ↔ '\n' ∈ l := by
  simp only [List.mem_map]
  constructor
  · rintro ⟨a, ha, hab⟩
    by_cases h : a = '/'
    · subst h
      exact absurd hab (by decide)
    · rw [show toBack a = a from by simp [toBack, h]] at hab
      rwa [hab] at ha
  · intro h
    exact ⟨'\n', h, rfl⟩

theorem splitHostShare_toBack {b : List Char} (hb : ∀ c ∈ b, c ≠ '\\') :
    splitHostShare '\\' (b.map toBack) =
      (splitHostShare '/' b).map (fun x => (x.1, x.2.1, x.2.2.map toBack)) := by
  have hb₂ : ∀ c ∈ (b.dropWhile (fun c => c ≠ '/')).tail, c ≠ '\\' :=
    fun c hc => hb c (List.dropWhile_subset _ (List.mem_of_mem_tail hc))
  simp only [splitHostShare]
  rw [takeWhile_toBack hb, dropWhile_toBack hb, ← List.map_tail,
    takeWhile_toBack hb₂, dropWhile_toBack hb₂]
  simp only [List.map_eq_nil_iff, newline_mem_map_toBack]
  by_cases h₁ : b.takeWhile (fun c => c ≠ '/') = []
  · rw [if_pos h₁, if_pos h₁]
    rfl
  · by_cases h₂ : b.dropWhile (fun c => c ≠ '/') = []
    · rw [if_neg h₁, if_neg h₁, if_pos h₂, if_pos h₂]
      rfl
    · by_cases h₃ :
        (b.dropWhile (fun c => c ≠ '/')).tail.takeWhile (fun c => c ≠ '/') = []
      · rw [if_neg h₁, if_neg h₁, if_neg h₂, if_neg h₂, if_pos h₃, if_pos h₃]
        rfl
      · by_cases h₄ :
          '\n' ∈ (b.dropWhile (fun c => c ≠ '/')).tail.dropWhile (fun c => c ≠ '/')
        · rw [if_neg h₁, if_neg h₁, if_neg h₂, if_neg h₂, if_neg h₃, if_neg h₃,
            if_pos h₄, if_pos h₄]
          rfl
        · simp only [if_neg h₁, if_neg h₂, if_neg h₃, if_neg h₄, Option.map_some]
          refine congrArg some ?_
          refine Prod.ext ?_ (Prod.ext ?_ rfl)
          · exact map_toBack_id fun c hc => by
              simpa using List.mem_takeWhile_imp hc
          · exact map_toBack_id fun c hc => by
              simpa using List.mem_takeWhile_imp hc

theorem splitColon_ne_nil (l : List Char) : splitColon l ≠ [] := by
  cases l with
  | nil => simp [splitColon]
  | cons c rest =>
    simp only [splitColon]
    split
    · simp
    · split <;> simp

theorem length_splitColon (l : List Char) :
    (splitColon l).length = countColon l + 1 := by
  induction l with
  | nil => rfl
  | cons c rest ih =>
    by_cases hc : c = ':'
    · simp [splitColon, countColon, hc, ih]
      omega
    · simp only [splitColon, countColon, if_neg hc]
      cases hsc : splitColon rest with
      | nil => exact absurd hsc (splitColon_ne_nil rest)
      | cons p ps =>
        rw [hsc] at ih
        simp at ih ⊢
        omega

theorem splitHostShare_ok {sep : Char} {rest h s p : List Char}
    (heq : splitHostShare sep rest = some (h, s, p)) :
    (∀ c ∈ h, c ≠ sep) ∧ (∀ c ∈ s, c ≠ sep) ∧ (∀ c ∈ p, c ∈ rest) := by
  simp only [splitHostShare] at heq
  split at heq
  · exact absurd heq (by simp)
  · split at heq
    · exact absurd heq (by simp)
    · split at heq
      · exact absurd heq (by simp)
      · split at heq
        · exact absurd heq (by simp)
        · simp only [Option.some.injEq, Prod.mk.injEq] at heq
          obtain ⟨hh, hs, hp⟩ := heq
          refine ⟨fun c hc => ?_, fun c hc => ?_, fun c hc => ?_⟩
          · rw [← hh] at hc
            simpa using List.mem_takeWhile_imp hc
          · rw [← hs] at hc
            simpa using List.mem_takeWhile_imp hc
          · rw [← hp] at hc
            have h₁ := List.dropWhile_subset _ hc
            have h₂ := List.mem_of_mem_tail h₁
            exact List.dropWhile_subset _ h₂

theorem parse_windows_ok_sep {i : List Char} {u : UncPath}
    (hp : parse_windows_unc i = .ok u) :
    (∀ c ∈ u.host, c ≠ '\\') ∧ (∀ c ∈ u.share, c ≠ '\\') := by
  unfold parse_windows_unc at hp
  split at hp
  · split at hp
    · rename_i heq
      obtain ⟨h₁, h₂, _⟩ := splitHostShare_ok heq
      obtain hu := (Except.ok.inj hp).symm
      subst hu
      exact ⟨h₁, h₂⟩
    · exact absurd hp (by simp)
  · exact absurd hp (by simp)

theorem parse_smb_ok_sep {i : List Char} {u : UncPath}
    (hp : parse_smb_url i = .ok u) :
    (∀ c ∈ u.host, c ≠ '/') ∧ (∀ c ∈ u.share, c ≠ '/') := by
  unfold parse_smb_url at hp
  split at hp
  · split at hp
    · rename_i heq
      obtain ⟨h₁, h₂, _⟩ := splitHostShare_ok heq
      obtain hu := (Except.ok.inj hp).symm
      subst hu
      exact ⟨h₁, h₂⟩
    · exact absurd hp (by simp)
  · exact absurd hp (by simp)

theorem parse_unix_ok_sep {i : List Char} {u : UncPath}
    (hp : parse_unix_style i = .ok u) :
    (∀ c ∈ u.host, c ≠ '/') ∧ (∀ c ∈ u.share, c ≠ '/') := by
  unfold parse_unix_style at hp
  split at hp
  · split at hp
    · rename_i heq
      obtain ⟨h₁, h₂, _⟩ := splitHostShare_ok heq
      obtain hu := (Except.ok.inj hp).symm
      subst hu
      exact ⟨h₁, h₂⟩
    · exact absurd hp (by simp)
  · exact absurd hp (by simp)

theorem parse_windows_error_shape {i : List Char} {e : UncPathError}
    (he : parse_windows_unc i = .error e) : e = .InvalidFormat (winMsg i) := by
  unfold parse_windows_unc at he
  split at he
  · split at he
    · exact absurd he (by simp)
    · exact (Except.error.inj he).symm
  · exact (Except.error.inj he).symm

theorem parse_smb_error_shape {i : List Char} {e : UncPathError}
    (he : parse_smb_url i = .error e) : e = .InvalidFormat (smbMsg i) := by
  unfold parse_smb_url at he
  split at he
  · split at he
    · exact absurd he (by simp)
    · exact (Except.error.inj he).symm
  · exact (Except.error.inj he).symm

theorem parse_unix_error_shape {i : List Char} {e : UncPathError}
    (he : parse_unix_style i = .error e) : e = .InvalidFormat (unixMsg i) := by
  unfold parse_unix_style at he
  split at he
  · split at he
    · exact absurd he (by simp)
    · exact (Except.error.inj he).symm
  · exact (Except.error.inj he).symm

theorem replaceBackslash_map_toBack {p : List Char} (h : ∀ c ∈ p, c ≠ '\\') :
    replaceBackslash (p.map toBack) = p := by
  induction p with
  | nil => rfl
  | cons c rest ih =>
    simp only [replaceBackslash, List.map_cons] at ih ⊢
    congr 1
    · by_cases hc : c = '/'
      · subst hc
        rfl
      · simp [toBack, hc, h c (by simp)]
    · exact ih fun c₀ hc => h c₀ (by simp [hc])

theorem parseRel_win_unix {b : List Char} (hb : ∀ c ∈ b, c ≠ '\\') :
    parseRel (parse_windows_unc ('\\' :: '\\' :: b.map toBack))
      (parse_unix_style ('/' :: '/' :: b)) := by
  simp only [parse_windows_unc, parse_unix_style, splitHostShare_toBack hb]
  cases hcase : splitHostShare '/' b with
  | none => simp [parseRel, UncPathError.kind]
  | some x =>
    obtain ⟨h, s, p⟩ := x
    have hmem := (splitHostShare_ok hcase).2.2
    have hp : ∀ c ∈ p, c ≠ '\\' := fun c hc => hb c (hmem c hc)
    simp [parseRel, replaceBackslash_map_toBack hp]

theorem parseRel_smb_unix (b : List Char) :
    parseRel (parse_smb_url ('s' :: 'm' :: 'b' :: ':' :: '/' :: '/' :: b))
      (parse_unix_style ('/' :: '/' :: b)) := by
  simp only [parse_smb_url, parse_unix_style]
  cases hcase : splitHostShare '/' b with
  | none => simp [parseRel, UncPathError.kind]
  | some x =>
    obtain ⟨h, s, p⟩ := x
    simp [parseRel]

theorem sameOutcome_refl (x : Except UncPathError (List Char)) :
    sameOutcome x x := by
  cases x
  · simp [sameOutcome]
  · simp [sameOutcome]

theorem convert_of_parseRel {i₁ i₂ : List Char} (t : MappingTable)
    (h : parseRel (parse_unc_path i₁) (parse_unc_path i₂)) :
    sameOutcome (convert_to_posix i₁ t) (convert_to_posix i₂ t) := by
  unfold convert_to_posix
  cases h₁ : parse_unc_path i₁ with
  | error e₁ =>
    cases h₂ : parse_unc_path i₂ with
    | error e₂ =>
      rw [h₁, h₂] at h
      exact h
    | ok v =>
      rw [h₁, h₂] at h
      exact absurd h (by simp [parseRel])
  | ok u =>
    cases h₂ : parse_unc_path i₂ with
    | error e₂ =>
      rw [h₁, h₂] at h
      exact absurd h (by simp [parseRel])
    | ok v =>
      rw [h₁, h₂] at h
      have huv : u = v := h
      subst huv
      exact sameOutcome_refl _

/-! ## Claim theorems -/

/-- C6: for every input whose parsed residual path is empty or exactly "/"
and whose host and share are found in the table, convert returns the mount
point verbatim, with no trailing slash added or removed. -/
theorem convert_root_verbatim (input : List Char) (table : MappingTable)
    (u : UncPath) (mp : List Char)
    (hp : parse_unc_path input = .ok u)
    (hpath : u.path = [] ∨ u.path = ['/'])
    (hf : find_mount_point table u.host u.share = some mp) :
    convert_to_posix input table = .ok mp := by
  simp only [convert_to_posix, hp, hf]
  rw [if_pos hpath]

theorem convert_root_verbatim_witness :
    convert_to_posix "\\\\server\\shared".toList
      ⟨[⟨"server".toList, "shared".toList, "/mnt/shared".toList⟩]⟩ =
      .ok "/mnt/shared".toList :=
  convert_root_verbatim ("\\\\server\\shared".toList)
    ⟨[⟨"server".toList, "shared".toList, "/mnt/shared".toList⟩]⟩
    ⟨"server".toList, "shared".toList, []⟩ ("/mnt/shared".toList)
    (by decide) (Or.inl rfl) (by decide)

/-- C1, counterexample: the claim predicts that a mount point ending in two
slashes keeps all but one of them, so converting //h/s/a with mount point
/m// should give /m//a.  The code strips ALL trailing slashes
(trim_end_matches) and yields /m/a. -/
theorem convert_join_counterexample :
    parse_unc_path "//h/s/a".toList = .ok ⟨['h'], ['s'], ['/', 'a']⟩ ∧
    find_mount_point ⟨[⟨['h'], ['s'], "/m//".toList⟩]⟩ ['h'] ['s'] =
      some "/m//".toList ∧
    convert_to_posix "//h/s/a".toList ⟨[⟨['h'], ['s'], "/m//".toList⟩]⟩ =
      .ok "/m/a".toList ∧
    "/m/a".toList ≠ "/m//a".toList := by decide

/-- C1, amended: for every input that parses to a non-empty residual path
other than "/" and whose host and share are found in the table, convert
returns the mount point with ALL trailing slashes stripped, concatenated
directly with the parsed path. -/
theorem convert_join_strips_trailing_slashes (input : List Char)
    (table : MappingTable) (u : UncPath) (mp : List Char)
    (hp : parse_unc_path input = .ok u)
    (h₁ : u.path ≠ []) (h₂ : u.path ≠ ['/'])
    (hf : find_mount_point table u.host u.share = some mp) :
    convert_to_posix input table = .ok (trimEndSlashes mp ++ u.path) := by
  simp only [convert_to_posix, hp, hf]
  rw [if_neg]
  rintro (h | h)
  · exact h₁ h
  · exact h₂ h

theorem convert_join_strips_trailing_slashes_witness :
    convert_to_posix "//h/s/a".toList ⟨[⟨['h'], ['s'], "/mnt//".toList⟩]⟩ =
      .ok "/mnt/a".toList :=
  convert_join_strips_trailing_slashes ("//h/s/a".toList)
    ⟨[⟨['h'], ['s'], "/mnt//".toList⟩]⟩ ⟨['h'], ['s'], ['/', 'a']⟩
    ("/mnt//".toList) (by decide) (by decide) (by decide) (by decide)

/-- C3: find_mount_point returns the mount point of the first entry in
insertion order whose host and share case-insensitively equal the query;
any later entry with the same key (such as a B inserted after A) is
shadowed. -/
theorem find_mount_point_first_match (pre post : List MountMapping)
    (m : MountMapping) (h s : List Char)
    (hm : lowerStr m.host = lowerStr h ∧ lowerStr m.share = lowerStr s)
    (hpre : ∀ m₀ ∈ pre,
      ¬(lowerStr m₀.host = lowerStr h ∧ lowerStr m₀.share = lowerStr s)) :
    find_mount_point ⟨pre ++ m :: post⟩ h s = some m.mount_point :=
  findMP_first pre post m h s hm hpre

theorem find_mount_point_first_match_witness :
    find_mount_point ⟨[⟨"Server".toList, "Shared".toList, "/mnt/a".toList⟩,
        ⟨"server".toList, "shared".toList, "/mnt/b".toList⟩]⟩
      "SERVER".toList "SHARED".toList = some "/mnt/a".toList :=
  find_mount_point_first_match []
    [⟨"server".toList, "shared".toList, "/mnt/b".toList⟩]
    ⟨"Server".toList, "Shared".toList, "/mnt/a".toList⟩
    ("SERVER".toList) ("SHARED".toList) (by decide) (by decide)

/-- C4: lookups whose keys agree up to letter case return identical
results, and a query matching no entry case-insensitively returns none,
never any default mount point. -/
theorem find_mount_point_case_insensitive (t : MappingTable) :
    (∀ h₁ s₁ h₂ s₂ : List Char, lowerStr h₁ = lowerStr h₂ →
      lowerStr s₁ = lowerStr s₂ →
      find_mount_point t h₁ s₁ = find_mount_point t h₂ s₂) ∧
    (∀ h s : List Char,
      (∀ m ∈ t.mappings,
        ¬(lowerStr m.host = lowerStr h ∧ lowerStr m.share = lowerStr s)) →
      find_mount_point t h s = none) := by
  refine ⟨fun h₁ s₁ h₂ s₂ hh hs => ?_, fun h s hno => ?_⟩
  · exact findMP_keys_congr t.mappings h₁ s₁ h₂ s₂ hh hs
  · exact findMP_none t.mappings h s hno

theorem find_mount_point_case_insensitive_witness :
    find_mount_point ⟨[⟨"Server".toList, "Shared".toList, "/mnt/x".toList⟩]⟩
      "SERVER".toList "SHARED".toList =
    find_mount_point ⟨[⟨"Server".toList, "Shared".toList, "/mnt/x".toList⟩]⟩
      "server".toList "shared".toList :=
  (find_mount_point_case_insensitive
      ⟨[⟨"Server".toList, "Shared".toList, "/mnt/x".toList⟩]⟩).1
    ("SERVER".toList) ("SHARED".toList) ("server".toList) ("shared".toList)
    (by decide) (by decide)

/-- C7: add_from_cli appends exactly one mapping when the string splits on
the colon into exactly three fields, and otherwise returns an
InvalidMapping error carrying the offending text while leaving the table
unchanged. -/
theorem add_from_cli_spec (t : MappingTable) (s : List Char) :
    ((splitColon s).length = 3 →
      ∃ a b c, splitColon s = [a, b, c] ∧
        add_from_cli t s = (.ok (), ⟨t.mappings ++ [⟨a, b, c⟩]⟩)) ∧
    ((splitColon s).length ≠ 3 →
      add_from_cli t s = (.error (.InvalidMapping (cliMsg s)), t)) := by
  constructor
  · intro hlen
    obtain ⟨a, b, c, habc⟩ := List.length_eq_three.mp hlen
    exact ⟨a, b, c, habc, by simp [add_from_cli, habc, add_mapping]⟩
  · intro hlen
    simp only [add_from_cli]
    split
    · rename_i heq
      exact absurd (by rw [heq]; rfl) hlen
    · rfl

theorem add_from_cli_spec_witness :
    add_from_cli ⟨[]⟩ "invalid:format".toList =
      (.error (.InvalidMapping (cliMsg "invalid:format".toList)), ⟨[]⟩) :=
  (add_from_cli_spec ⟨[]⟩ ("invalid:format".toList)).2 (by decide)

/-- C9: load_from_env and load_from_file are atomic on error: when the
JSON blob fails to decode, or the file is unreadable, they return an error
and the mapping sequence is exactly what it was before the call. -/
theorem load_atomic_on_error
    (parseJson : List Char → Except (List Char) (List MountMapping))
    (t : MappingTable) (s e ioe : List Char)
    (hpe : parseJson s = .error e) :
    load_from_env parseJson (some s) t = (.error (.JsonError e), t) ∧
    load_from_file parseJson (.ok s) t = (.error (.JsonError e), t) ∧
    load_from_file parseJson (.error ioe) t = (.error (.IoError ioe), t) := by
  refine ⟨?_, ?_, rfl⟩ <;> simp [load_from_env, load_from_file, hpe]

theorem load_atomic_on_error_witness :
    load_from_env (fun _ => .error ['x']) (some ['{']) ⟨[]⟩ =
      (.error (.JsonError ['x']), ⟨[]⟩) :=
  (load_atomic_on_error (fun _ => .error ['x']) ⟨[]⟩ ['{'] ['x'] [] rfl).1

/-- C10: add_from_cli performs no non-emptiness validation: every input
with exactly two colons succeeds, the input consisting of two colons
appends a mapping whose host, share and mount point are all empty, and
that entry then answers lookups for the empty host and share. -/
theorem add_from_cli_no_validation :
    (∀ (t : MappingTable) (s : List Char), countColon s = 2 →
      ∃ a b c, splitColon s = [a, b, c] ∧
        add_from_cli t s = (.ok (), ⟨t.mappings ++ [⟨a, b, c⟩]⟩)) ∧
    (∀ t : MappingTable, add_from_cli t [':', ':'] =
      (.ok (), ⟨t.mappings ++ [⟨[], [], []⟩]⟩)) ∧
    (∀ t : MappingTable,
      (∀ m ∈ t.mappings, ¬(lowerStr m.host = [] ∧ lowerStr m.share = [])) →
      find_mount_point (add_from_cli t [':', ':']).2 [] [] = some []) := by
  refine ⟨fun t s hcount => ?_, fun t => rfl, fun t hno => ?_⟩
  · have hlen : (splitColon s).length = 3 := by
      rw [length_splitColon, hcount]
    obtain ⟨a, b, c, habc⟩ := List.length_eq_three.mp hlen
    exact ⟨a, b, c, habc, by simp [add_from_cli, habc, add_mapping]⟩
  · exact findMP_first t.mappings [] ⟨[], [], []⟩ [] [] ⟨rfl, rfl⟩ hno

/-- C2, counterexample: the claim says parsed host and share contain no
path separator at all, but the Windows UNC grammar excludes only the
backslash, so a forward slash may appear inside the host. -/
theorem parse_no_separator_counterexample :
    parse_unc_path "\\\\a/b\\share".toList =
      .ok ⟨"a/b".toList, "share".toList, []⟩ ∧
    '/' ∈ "a/b".toList := by decide

/-- C2, amended: host and share never contain the separator character of
the grammar that parsed them: no backslash for a Windows UNC input, no
forward slash for an SMB URL or Unix-style input. -/
theorem parse_no_own_separator (input : List Char) (u : UncPath)
    (hp : parse_unc_path input = .ok u) :
    (startsWith ['\\', '\\'] (trim input) = true →
      u.host.all (fun c => c ≠ '\\') = true ∧
      u.share.all (fun c => c ≠ '\\') = true) ∧
    (startsWith ['\\', '\\'] (trim input) = false →
      u.host.all (fun c => c ≠ '/') = true ∧
      u.share.all (fun c => c ≠ '/') = true) := by
  simp only [parse_unc_path] at hp
  split at hp
  · rename_i hcond
    constructor
    · intro _
      obtain ⟨hh, hs⟩ := parse_windows_ok_sep hp
      constructor <;> simp only [List.all_eq_true, decide_eq_true_eq]
      · exact hh
      · exact hs
    · intro hfalse
      rw [hcond] at hfalse
      exact absurd hfalse (by simp)
  · rename_i hcond
    have hsep : (∀ c ∈ u.host, c ≠ '/') ∧ ∀ c ∈ u.share, c ≠ '/' := by
      split at hp
      · exact parse_smb_ok_sep hp
      · split at hp
        · exact parse_unix_ok_sep hp
        · exact absurd hp (by simp)
    constructor
    · intro htrue
      rw [Bool.not_eq_true] at hcond
      rw [hcond] at htrue
      exact absurd htrue (by simp)
    · intro _
      obtain ⟨hh, hs⟩ := hsep
      constructor <;> simp only [List.all_eq_true, decide_eq_true_eq]
      · exact hh
      · exact hs

theorem parse_no_own_separator_witness :
    (['h'] : List Char).all (fun c => c ≠ '\\') = true ∧
    (['s'] : List Char).all (fun c => c ≠ '\\') = true :=
  (parse_no_own_separator ("\\\\h\\s".toList) ⟨['h'], ['s'], []⟩
    (by decide)).1 (by decide)

/-- C8: after trimming, an input starting with none of the three prefixes
fails with InvalidFormat carrying the input text; an input starting with
one of them is parsed only under that grammar, in the fixed priority order
Windows UNC, SMB URL, Unix-style, and a structural failure there yields an
InvalidFormat error whose message names that grammar. -/
theorem parse_dispatch (input : List Char) :
    (startsWith ['\\', '\\'] (trim input) = true →
      parse_unc_path input = parse_windows_unc (trim input) ∧
      ∀ e, parse_windows_unc (trim input) = .error e →
        e = .InvalidFormat (winMsg (trim input))) ∧
    (startsWith ['\\', '\\'] (trim input) = false →
      startsWith ['s', 'm', 'b', ':', '/', '/'] (trim input) = true →
      parse_unc_path input = parse_smb_url (trim input) ∧
      ∀ e, parse_smb_url (trim input) = .error e →
        e = .InvalidFormat (smbMsg (trim input))) ∧
    (startsWith ['\\', '\\'] (trim input) = false →
      startsWith ['s', 'm', 'b', ':', '/', '/'] (trim input) = false →
      startsWith ['/', '/'] (trim input) = true →
      parse_unc_path input = parse_unix_style (trim input) ∧
      ∀ e, parse_unix_style (trim input) = .error e →
        e = .InvalidFormat (unixMsg (trim input))) ∧
    (startsWith ['\\', '\\'] (trim input) = false →
      startsWith ['s', 'm', 'b', ':', '/', '/'] (trim input) = false →
      startsWith ['/', '/'] (trim input) = false →
      parse_unc_path input = .error (.InvalidFormat (noFormatMsg (trim input)))) := by
  refine ⟨fun h₁ => ⟨?_, fun e he => parse_windows_error_shape he⟩,
    fun h₁ h₂ => ⟨?_, fun e he => parse_smb_error_shape he⟩,
    fun h₁ h₂ h₃ => ⟨?_, fun e he => parse_unix_error_shape he⟩,
    fun h₁ h₂ h₃ => ?_⟩ <;>
  simp [parse_unc_path, h₁]
  · simp [h₂]
  · simp [h₂, h₃]
  · simp [h₂, h₃]

theorem parse_dispatch_witness :
    parse_unc_path ['x'] = .error (.InvalidFormat (noFormatMsg (trim ['x']))) :=
  (parse_dispatch ['x']).2.2.2 (by decide) (by decide) (by decide)

theorem add_from_cli_no_validation_witness :
    find_mount_point (add_from_cli ⟨[]⟩ [':', ':']).2 [] [] = some [] :=
  add_from_cli_no_validation.2.2 ⟨[]⟩ (by simp)

/-- C5: for every host, share and residual segment sequence whose tokens
contain no separator characters, and every table, converting the Windows
UNC form, the SMB URL form and the Unix-style form of the same logical
reference yields the identical result: the same output string, or errors
of the same kind. -/
theorem convert_format_equivalence (host share : List Char)
    (segs : List (List Char)) (table : MappingTable)
    (hh : ∀ c ∈ host, c ≠ '/' ∧ c ≠ '\\')
    (hs : ∀ c ∈ share, c ≠ '/' ∧ c ≠ '\\')
    (hg : ∀ s ∈ segs, ∀ c ∈ s, c ≠ '/' ∧ c ≠ '\\') :
    sameOutcome (convert_to_posix (winForm host share segs) table)
      (convert_to_posix (unixForm host share segs) table) ∧
    sameOutcome (convert_to_posix (smbForm host share segs) table)
      (convert_to_posix (unixForm host share segs) table) := by
  have hbody_noback :
      ∀ c ∈ host ++ '/' :: share ++ segsJoin '/' segs, c ≠ '\\' := by
    intro c hc
    simp only [List.mem_append, List.mem_cons] at hc
    rcases hc with (hc | hc | hc) | hc
    · exact (hh c hc).2
    · rw [hc]
      decide
    · exact (hs c hc).2
    · rcases mem_segsJoin hc with hc | ⟨s₀, hs₀, hc⟩
      · rw [hc]
        decide
      · exact (hg s₀ hs₀ c hc).2
  have hb : trimRight (host ++ '/' :: share ++ segsJoin '/' segs) ≠ [] :=
    trimRight_ne_nil '/' (by simp) (by decide)
  have hbmap :
      trimRight ((host ++ '/' :: share ++ segsJoin '/' segs).map toBack) ≠ [] := by
    rw [trimRight_map toBack_ws]
    simp only [ne_eq, List.map_eq_nil_iff]
    exact hb
  have hbnb : ∀ c ∈ trimRight (host ++ '/' :: share ++ segsJoin '/' segs),
      c ≠ '\\' := fun c hc => hbody_noback c (mem_trimRight hc)
  have htw : trim (winForm host share segs) =
      '\\' :: '\\' ::
        (trimRight (host ++ '/' :: share ++ segsJoin '/' segs)).map toBack := by
    unfold winForm
    rw [show host ++ '\\' :: share ++ segsJoin '\\' segs =
        (host ++ '/' :: share ++ segsJoin '/' segs).map toBack from
      (body_map_toBack (fun c hc => (hh c hc).1) (fun c hc => (hs c hc).1)
        (fun s₀ hs₀ c hc => (hg s₀ hs₀ c hc).1)).symm]
    rw [trim_pre_append (by simp) (by decide) hbmap,
      trimRight_map toBack_ws]
    rfl
  have htu : trim (unixForm host share segs) =
      '/' :: '/' :: trimRight (host ++ '/' :: share ++ segsJoin '/' segs) := by
    unfold unixForm
    rw [trim_pre_append (by simp) (by decide) hb]
    rfl
  have hts : trim (smbForm host share segs) =
      's' :: 'm' :: 'b' :: ':' :: '/' :: '/' ::
        trimRight (host ++ '/' :: share ++ segsJoin '/' segs) := by
    unfold smbForm
    rw [trim_pre_append (by simp) (by decide) hb]
    rfl
  have hpw : parse_unc_path (winForm host share segs) =
      parse_windows_unc ('\\' :: '\\' ::
        (trimRight (host ++ '/' :: share ++ segsJoin '/' segs)).map toBack) := by
    simp only [parse_unc_path, htw]
    rw [if_pos (by simp [startsWith])]
  have hpu : parse_unc_path (unixForm host share segs) =
      parse_unix_style ('/' :: '/' ::
        trimRight (host ++ '/' :: share ++ segsJoin '/' segs)) := by
    simp only [parse_unc_path, htu]
    rw [if_neg (by simp [startsWith]), if_neg (by simp [startsWith]),
      if_pos (by simp [startsWith])]
  have hps : parse_unc_path (smbForm host share segs) =
      parse_smb_url ('s' :: 'm' :: 'b' :: ':' :: '/' :: '/' ::
        trimRight (host ++ '/' :: share ++ segsJoin '/' segs)) := by
    simp only [parse_unc_path, hts]
    rw [if_neg (by simp [startsWith]), if_pos (by simp [startsWith])]
  constructor
  · apply convert_of_parseRel
    rw [hpw, hpu]
    exact parseRel_win_unix hbnb
  · apply convert_of_parseRel
    rw [hps, hpu]
    exact parseRel_smb_unix _

theorem convert_format_equivalence_witness :
    sameOutcome
      (convert_to_posix (winForm "server".toList "share".toList [['a'], ['b']])
        ⟨[⟨"server".toList, "share".toList, "/mnt/x".toList⟩]⟩)
      (convert_to_posix (unixForm "server".toList "share".toList [['a'], ['b']])
        ⟨[⟨"server".toList, "share".toList, "/mnt/x".toList⟩]⟩) ∧
    sameOutcome
      (convert_to_posix (smbForm "server".toList "share".toList [['a'], ['b']])
        ⟨[⟨"server".toList, "share".toList, "/mnt/x".toList⟩]⟩)
      (convert_to_posix (unixForm "server".toList "share".toList [['a'], ['b']])
        ⟨[⟨"server".toList, "share".toList, "/mnt/x".toList⟩]⟩) :=
  convert_format_equivalence ("server".toList) ("share".toList) [['a'], ['b']]
    ⟨[⟨"server".toList, "share".toList, "/mnt/x".toList⟩]⟩
    (by decide) (by decide) (by decide)

end Uncpath
